import Mathlib

/-!
Verification development for the schema migration runner of
`web-server-starter-kit` (`src/migrations/migrations.go`).

The Go code is shallowly embedded:
* pure string manipulation (`parseMigrationFile`, the `.sql` filters, the
  version sort of `loadMigrations`) becomes pure Lean functions on `String`
  and `List Char`;
* the database engine becomes an explicit state (`DBState`): the ledger table
  `schema_migrations` is a list of rows kept in insertion order (standing for
  the server-assigned `applied_at` order), the rest of the schema is an
  abstract type `σ` acted on by an execution oracle
  `exec : String → σ → Option σ` (`none` = the statement failed);
* a transaction is modelled by its net effect: a failing step returns the
  pre-transaction state (the Go code `defer tx.Rollback()`s and only commits
  at the end), and a counter `txCount` records how many transactions were
  ever begun;
* `filepath.WalkDir` becomes an input `Option (List MFile)`: `none` models a
  walk error (e.g. the migrations directory does not exist, in which case
  `WalkDir` hands the callback the stat error, the callback returns it and
  the walk aborts), `some files` the regular files found, in walk
  (lexicographic) order.  Directories and the file-read / stat errors of
  `parseMigrationFile` are not modelled; the informational `Timestamp`
  (file mtime) field is dropped because nothing reads it.
-/

namespace MigRunner

/-- Direction of a migration, `migrations.go` lines 18-23. -/
inductive Direction where
  | up
  | down
deriving DecidableEq, Repr

/-- One parsed migration record, `migrations.go` lines 25-31 (the informational
`Timestamp` field is omitted: nothing in the runner reads it). -/
structure Migration where
  Version : Int
  Name : String
  UpSQL : String
  DownSQL : String
deriving DecidableEq, Repr

/-- Errors of `parseMigrationFile` (lines 120, 126, 132): wrong suffix,
no `_` separator, unparseable version token. -/
inductive ParseError where
  | invalidSuffix
  | invalidFormat
  | invalidVersion
deriving DecidableEq, Repr

/-- Model of `strings.Split` on a one-character separator: Go semantics (splitting the
empty string yields `[""]`, adjacent separators yield empty fields). -/
def splitChar (sep : Char) : List Char → List (List Char)
  | [] => [[]]
  | c :: rest =>
    let r := splitChar sep rest
    if c = sep then [] :: r
    else
      match r with
      | [] => [[c]]
      | h :: t => (c :: h) :: t

/-- Model of `strings.Join` with a one-character separator. -/
def joinChar (sep : Char) : List (List Char) → List Char
  | [] => []
  | [x] => x
  | x :: xs => x ++ sep :: joinChar sep xs

/-- Model of `strconv.Atoi`: optional sign, one or more ASCII digits, value within the
64-bit `int` range; anything else is an error (`none`).  Note that a leading
`-` or `+` is accepted, so negative versions parse successfully. -/
def goAtoi (l : List Char) : Option Int :=
  let p : Bool × List Char :=
    match l with
    | '+' :: rest => (false, rest)
    | '-' :: rest => (true, rest)
    | _ => (false, l)
  if p.2 = [] then none
  else if p.2.all Char.isDigit then
    let n : Nat := p.2.foldl (fun a c => a * 10 + (c.toNat - 48)) 0
    let v : Int := if p.1 then -(n : Int) else (n : Int)
    if -(2 ^ 63) ≤ v ∧ v < 2 ^ 63 then some v else none
  else none

/-- Model of `strings.TrimSpace` (whitespace at both ends removed). -/
def trimSpace (s : String) : String :=
  ((s.data.dropWhile Char.isWhitespace).reverse.dropWhile Char.isWhitespace).reverse.asString

/-- Model of `strings.HasSuffix` on character lists. -/
def hasSuffixC (l suf : List Char) : Bool :=
  decide (suf.isSuffixOf l)

/-- Model of `strings.TrimSuffix`: drop `suf` from the end (callers check the suffix
first). -/
def trimSuffixC (l suf : List Char) : List Char :=
  l.take (l.length - suf.length)

/-- Lines 124-163 of `parseMigrationFile`: the version / name extraction
shared by both suffixes — split the basename on `_`, `Atoi` the first field
as the version, rejoin the remaining fields as the name, and store the
trimmed content on the side the suffix selected. -/
def parseHalfGo (baseName : List Char) (isUpFile : Bool) (content : String) :
    Except ParseError Migration :=
  let parts := splitChar '_' baseName
  if parts.length < 2 then .error .invalidFormat
  else
    match goAtoi parts.headI with
    | none => .error .invalidVersion
    | some version =>
      let name := (joinChar '_' parts.tail).asString
      if isUpFile then
        .ok ⟨version, name, trimSpace content, ""⟩
      else
        .ok ⟨version, name, "", trimSpace content⟩

/-- Model of `Migrator.parseMigrationFile` (lines 108-164) on a filename and
the content of the file: recognise the `.up.sql` / `.down.sql` suffix and
hand the rest of the basename to the shared extraction. -/
def parseMigrationFile (filename content : String) : Except ParseError Migration :=
  let fn := filename.data
  let upSuf := ".up.sql".data
  let downSuf := ".down.sql".data
  if hasSuffixC fn upSuf then
    parseHalfGo (trimSuffixC fn upSuf) true content
  else if hasSuffixC fn downSuf then
    parseHalfGo (trimSuffixC fn downSuf) false content
  else
    .error .invalidSuffix

/-- One input file of the directory walk: base name and content.  The list
handed to `loadMigrations` is in `filepath.WalkDir` order (lexicographic by
name); only regular files are listed (directories are skipped by the Go
callback). -/
structure MFile where
  name : String
  content : String
deriving DecidableEq, Repr

/-- Errors surfaced by the migration operations.  Go wraps messages with
`fmt.Errorf`; here only the failing step is recorded. -/
inductive MigError where
  /-- Error case: `filepath.WalkDir` reported an error (line 93-95). -/
  | walkFailed
  /-- Error case: `no <dir> SQL found for migration <v>` (line 337-339). -/
  | missingScript (d : Direction) (version : Int)
  /-- Error case: `failed to execute migration SQL` (line 354-357). -/
  | execFailed (version : Int) (d : Direction)
  /-- the `INSERT INTO schema_migrations` hit the `version` primary key
  (lines 360-373). -/
  | ledgerInsertConflict (version : Int)
  /-- Error case: `migration file not found for version <v>` (line 311-313). -/
  | migrationFileMissing (version : Int)
deriving DecidableEq, Repr

/-- One row of `schema_migrations`: `version` (primary key) and `name`.  The
row's position in `DBState.ledger` is its insertion position, standing for the
server-assigned `applied_at` timestamp order. -/
structure LedgerRow where
  version : Int
  name : String
deriving DecidableEq, Repr

/-- The database as the runner sees it: whether the ledger table has been
created, the ledger rows in insertion order, the rest of the schema
(abstract), and how many transactions were ever begun. -/
structure DBState (σ : Type) where
  tableEnsured : Bool
  ledger : List LedgerRow
  schema : σ
  txCount : Nat
deriving DecidableEq, Repr

/-- The SQL execution oracle standing for the database engine running a
migration script inside the current transaction: `none` means the statement
failed. -/
def Exec (σ : Type) : Type := String → σ → Option σ

/-- Model of `Migrator.ensureMigrationsTable` (lines 49-65): `CREATE TABLE IF NOT
EXISTS`, an idempotent no-op on the rows. -/
def ensureTable {σ : Type} (st : DBState σ) : DBState σ :=
  { st with tableEnsured := true }

/-- Stable insertion of a migration into a version-sorted list: the inserted
migration (which precedes the rest in the input) goes before entries of the
same version. -/
def insertMig (m : Migration) : List Migration → List Migration
  | [] => [m]
  | x :: xs => if m.Version ≤ x.Version then m :: x :: xs else x :: insertMig m xs

/-- The version sort of `loadMigrations` (lines 98-100).  `sort.Slice` leaves
the order of equal versions unspecified; this embedding fixes the stable
order (walk order preserved among equal versions). -/
def sortMigs : List Migration → List Migration
  | [] => []
  | x :: xs => insertMig x (sortMigs xs)

/-- Model of `Migrator.loadMigrations` (lines 68-104): walk the directory (`none` = the
walk failed), keep `.sql` files, parse each one — a file that fails to parse
is logged and skipped — and sort the survivors by version. -/
def loadMigrations (dir : Option (List MFile)) : Except MigError (List Migration) :=
  match dir with
  | none => .error .walkFailed
  | some files =>
    .ok (sortMigs (files.filterMap fun f =>
      if hasSuffixC f.name.data (".sql".data) then
        (parseMigrationFile f.name f.content).toOption
      else
        none))

/-- The script a direction selects (lines 329-335). -/
def directionSQL (d : Direction) (m : Migration) : String :=
  match d with
  | .up => m.UpSQL
  | .down => m.DownSQL

/-- The versions recorded in the ledger, `getAppliedMigrations` (lines
213-231). -/
def appliedVersions (ledger : List LedgerRow) : List Int :=
  ledger.map (·.version)

/-- Model of `Migrator.applyMigration` (lines 328-386): pick the direction's script;
empty script fails before a transaction is begun; otherwise begin a
transaction, run the script, then insert (Up; fails on a duplicate `version`
primary key) or delete (Down) the ledger row, and commit.  A failing step
leaves the pre-transaction rows and schema (the deferred `tx.Rollback`). -/
def applyMigration {σ : Type} (exec : Exec σ) (m : Migration) (d : Direction)
    (st : DBState σ) : DBState σ × Option MigError :=
  let sql := directionSQL d m
  if sql = "" then (st, some (.missingScript d m.Version))
  else
    let st1 := { st with txCount := st.txCount + 1 }
    match exec sql st1.schema with
    | none => (st1, some (.execFailed m.Version d))
    | some sch' =>
      match d with
      | .up =>
        if (appliedVersions st1.ledger).contains m.Version then
          (st1, some (.ledgerInsertConflict m.Version))
        else
          ({ st1 with schema := sch', ledger := st1.ledger ++ [⟨m.Version, m.Name⟩] }, none)
      | .down =>
        ({ st1 with schema := sch',
                    ledger := st1.ledger.filter (fun r => r.version ≠ m.Version) }, none)

/-- The migrations of the catalog without a ledger row, in catalog order
(lines 251-256). -/
def pendingMigs (migs : List Migration) (ledger : List LedgerRow) : List Migration :=
  migs.filter (fun m => !((appliedVersions ledger).contains m.Version))

/-- The `for _, migration := range pending` loop of `Up` (lines 265-270):
apply each migration upward, stopping at the first failure (migrations already
committed stay committed). -/
def applyAll {σ : Type} (exec : Exec σ) :
    List Migration → DBState σ → DBState σ × Option MigError
  | [], st => (st, none)
  | m :: rest, st =>
    match applyMigration exec m .up st with
    | (st', none) => applyAll exec rest st'
    | (st', some e) => (st', some e)

/-- Model of `Migrator.Up` (lines 234-274): ensure the ledger table, load the catalog,
read the applied set, filter the pending migrations and apply them in order;
an empty pending set returns before any transaction. -/
def UpOp {σ : Type} (exec : Exec σ) (dir : Option (List MFile)) (st : DBState σ) :
    DBState σ × Option MigError :=
  let st := ensureTable st
  match loadMigrations dir with
  | .error e => (st, some e)
  | .ok migs =>
    let pending := pendingMigs migs st.ledger
    if pending.isEmpty then (st, none)
    else applyAll exec pending st

/-- Model of `SELECT version FROM schema_migrations ORDER BY version DESC LIMIT 1`
(lines 285-295): the greatest version in the ledger, `none` when the ledger is
empty. -/
def maxLedgerVersion (ledger : List LedgerRow) : Option Int :=
  (ledger.map (·.version)).max?

/-- Model of `Migrator.Down` (lines 277-325): ensure the table; an empty ledger is a
successful no-op; otherwise find the greatest applied version, load the
catalog, take the first catalog record of that version (the Go loop breaks at
the first match) and apply it downward. -/
def DownOp {σ : Type} (exec : Exec σ) (dir : Option (List MFile)) (st : DBState σ) :
    DBState σ × Option MigError :=
  let st := ensureTable st
  match maxLedgerVersion st.ledger with
  | none => (st, none)
  | some lastVersion =>
    match loadMigrations dir with
    | .error e => (st, some e)
    | .ok migs =>
      match migs.find? (fun m => m.Version = lastVersion) with
      | none => (st, some (.migrationFileMissing lastVersion))
      | some target => applyMigration exec target .down st

/-- One line of `Status` output (lines 405-414): version, name, and the
status string (`"applied"` or `"pending"`). -/
structure StatusEntry where
  version : Int
  name : String
  status : String
deriving DecidableEq, Repr

/-- Model of `Migrator.Status` (lines 389-418): ensure the table, load the catalog,
read the applied set, and report one line per catalog record.  The state is
returned to make the frame property explicit: nothing but the table bootstrap
touches it. -/
def StatusOp {σ : Type} (dir : Option (List MFile)) (st : DBState σ) :
    DBState σ × Except MigError (List StatusEntry) :=
  let st := ensureTable st
  match loadMigrations dir with
  | .error e => (st, .error e)
  | .ok migs =>
    (st, .ok (migs.map fun m =>
      ⟨m.Version, m.Name,
        if (appliedVersions st.ledger).contains m.Version then ("applied") else ("pending")⟩))

/-- Descending insertion used to model `ORDER BY version DESC` (line 429). -/
def insertDesc (v : Int) : List Int → List Int
  | [] => [v]
  | x :: xs => if x ≤ v then v :: x :: xs else x :: insertDesc v xs

/-- The applied versions sorted in descending order, as the `Reset` query
returns them. -/
def sortDesc : List Int → List Int
  | [] => []
  | x :: xs => insertDesc x (sortDesc xs)

/-- The `migrationMap` lookup of `Reset` (lines 456-459): the Go map is built
by iterating the sorted slice, so a later record of the same version
overwrites an earlier one — the lookup returns the last matching record. -/
def lookupLast (migs : List Migration) (v : Int) : Option Migration :=
  migs.reverse.find? (fun m => m.Version = v)

/-- The rollback loop of `Reset` (lines 462-472): walk the applied versions in
descending order; a version with no catalog record is logged as a warning
(collected in the returned list) and skipped; otherwise apply its migration
downward, stopping the whole operation at the first failure. -/
def resetLoop {σ : Type} (exec : Exec σ) (migs : List Migration) :
    List Int → DBState σ → DBState σ × Option MigError × List Int
  | [], st => (st, none, [])
  | v :: rest, st =>
    match lookupLast migs v with
    | none =>
      let r := resetLoop exec migs rest st
      (r.1, r.2.1, v :: r.2.2)
    | some m =>
      match applyMigration exec m .down st with
      | (st', none) => resetLoop exec migs rest st'
      | (st', some e) => (st', some e, [])

/-- Model of `Migrator.Reset` (lines 421-476): ensure the table, read the applied
versions in descending version order, return successfully if there are none
(the catalog is not even loaded), otherwise load the catalog and run the
rollback loop.  The third component collects the versions warned about as
missing from the catalog. -/
def ResetOp {σ : Type} (exec : Exec σ) (dir : Option (List MFile)) (st : DBState σ) :
    DBState σ × Option MigError × List Int :=
  let st := ensureTable st
  let versions := sortDesc (appliedVersions st.ledger)
  if versions.isEmpty then (st, none, [])
  else
    match loadMigrations dir with
    | .error e => (st, some e, [])
    | .ok migs => resetLoop exec migs versions st

/-- Sequential execution of a list of scripts against the abstract schema;
used to state in which order `Reset` runs the down scripts. -/
def applyScripts {σ : Type} (exec : Exec σ) : List String → σ → Option σ
  | [], sch => some sch
  | s :: rest, sch =>
    match exec s sch with
    | none => none
    | some sch' => applyScripts exec rest sch'

/-! ### Spec-side characterizations and concrete fixtures -/

/-- Spec's words: the leading token of the basename, i.e. the characters
before the first separator. -/
def leadingToken (l : List Char) : List Char :=
  l.takeWhile (fun c => c ≠ '_')

/-- Spec's words: everything after the first separator. -/
def afterFirstSep (l : List Char) : List Char :=
  (l.dropWhile (fun c => c ≠ '_')).drop 1

/-- A canonical paired catalog, exactly the documented on-disk format: one
migration, version 1, with an up file and a down file, listed in walk
(lexicographic) order. -/
def pairedDir : Option (List MFile) :=
  some [⟨"001_init.down.sql", "drop table t"⟩, ⟨"001_init.up.sql", "create table t"⟩]

/-- An execution oracle on a trivial schema for which every statement
succeeds. -/
def execId : Exec Unit := fun _ s => some s

/-- An execution oracle that records executed scripts in order and never
fails: the schema is the execution trace. -/
def traceExec : Exec (List String) := fun s t => some (t ++ [s])

/-- An execution oracle that fails exactly on the statement `"boom"` and
records every other statement. -/
def boomExec : Exec (List String) := fun s t => if s = "boom" then none else some (t ++ [s])

/-- A fresh database: no ledger table, no rows, empty trace, no transactions
begun. -/
def freshDB : DBState (List String) := ⟨false, [], [], 0⟩

/-- What the spec says a recognized-suffix branch of the parser does, stated
with the spec's own notions: no separator is a format error; a leading token
(the characters before the first separator) that `Atoi` rejects is a version
error; otherwise the version is that token's integer and the name is
everything after the first separator, with the content stored on the side the
suffix selects. -/
def parseBranchSpec (base : List Char) (isUp : Bool) (filename content : String) : Prop :=
  ('_' ∉ base → parseMigrationFile filename content = .error .invalidFormat) ∧
  ('_' ∈ base → goAtoi (leadingToken base) = none →
    parseMigrationFile filename content = .error .invalidVersion) ∧
  (∀ v : Int, '_' ∈ base → goAtoi (leadingToken base) = some v →
    parseMigrationFile filename content =
      .ok ⟨v, (afterFirstSep base).asString,
           if isUp then trimSpace content else (""),
           if isUp then ("") else trimSpace content⟩)

/-- A catalog of three up-only migrations whose middle script (`boom`) the
engine will reject; used to exercise the fail-fast path of `Up`. -/
def upFailDir : Option (List MFile) :=
  some [⟨"1_a.up.sql", "alpha"⟩, ⟨"2_b.up.sql", "boom"⟩, ⟨"3_c.up.sql", "gamma"⟩]

/-- The records `loadMigrations` produces for `upFailDir`. -/
def upFailMigs : List Migration :=
  [⟨1, "a", "alpha", ""⟩, ⟨2, "b", "boom", ""⟩, ⟨3, "c", "gamma", ""⟩]

/-- The state in which the fail-fast run stops: migration 1 committed, the
failing transaction of migration 2 begun and rolled back. -/
def upFailStopSt : DBState (List String) := ⟨true, [⟨1, "a"⟩], ["alpha"], 2⟩

/-- A single-migration catalog used for the idempotence witness. -/
def upOnceDir : Option (List MFile) := some [⟨"1_a.up.sql", "alpha"⟩]

/-- The state after running `Up` once on `upOnceDir` from `freshDB`. -/
def upOnceSt : DBState (List String) := ⟨true, [⟨1, "a"⟩], ["alpha"], 1⟩

/-- A two-migration up-only catalog for the ascending-application witness. -/
def upTwoDir : Option (List MFile) :=
  some [⟨"001_a.up.sql", "alpha"⟩, ⟨"002_b.up.sql", "beta"⟩]

/-- Down scripts for versions 1 and 3 only; version 2 has no file. -/
def resetDir : Option (List MFile) :=
  some [⟨"1_a.down.sql", "d1"⟩, ⟨"3_c.down.sql", "d3"⟩]

/-- A ledger holding versions 1, 3, 2 in that application order. -/
def resetSt : DBState (List String) := ⟨false, [⟨1, "a"⟩, ⟨3, "c"⟩, ⟨2, "b"⟩], [], 0⟩

/-- A ledger whose maximum version (5) was not the last row inserted, to show
`Down` selects by version number, not by application order. -/
def downSt : DBState (List String) := ⟨false, [⟨2, "b"⟩, ⟨5, "e"⟩, ⟨3, "c"⟩], [], 0⟩

/-- The catalog holding the down script of version 5. -/
def downDir : Option (List MFile) := some [⟨"5_e.down.sql", "drop e"⟩]

/-- Total-order instances for the comparison used by the catalog sort. -/
instance : IsTotal Migration (fun a b => a.Version ≤ b.Version) :=
  ⟨fun a b => le_total a.Version b.Version⟩

instance : IsTrans Migration (fun a b => a.Version ≤ b.Version) :=
  ⟨fun _ _ _ h1 h2 => le_trans h1 h2⟩

instance : IsTotal Int (fun a b => b ≤ a) := ⟨fun a b => le_total b a⟩

instance : IsTrans Int (fun a b => b ≤ a) := ⟨fun _ _ _ h1 h2 => le_trans h2 h1⟩

/-! ### Helper lemmas: Go string splitting -/

/-- The model of `strings.Split` never returns an empty slice. -/
lemma splitChar_ne_nil (sep : Char) (l : List Char) : splitChar sep l ≠ [] := by
  cases l with
  | nil => simp [splitChar]
  | cons c rest =>
    simp only [splitChar]
    split
    · simp
    · cases h : splitChar sep rest <;> simp

/-- The first field of the split is the leading token: the characters before
the first separator. -/
lemma splitChar_headI (sep : Char) (l : List Char) :
    (splitChar sep l).headI = l.takeWhile (fun c => c ≠ sep) := by
  induction l with
  | nil => simp [splitChar]
  | cons c rest ih =>
    simp only [splitChar]
    by_cases hc : c = sep
    · simp [hc]
    · simp only [if_neg hc]
      rcases h : splitChar sep rest with _ | ⟨h1, t1⟩
      · exact absurd h (splitChar_ne_nil sep rest)
      · have : (splitChar sep rest).headI = h1 := by rw [h]; rfl
        simp only [List.headI, List.takeWhile]
        rw [h] at ih
        simp only [List.headI] at ih
        simp [hc, ih]

/-- Rejoining the split fields restores the original string. -/
lemma joinChar_splitChar (sep : Char) (l : List Char) :
    joinChar sep (splitChar sep l) = l := by
  induction l with
  | nil => simp [splitChar, joinChar]
  | cons c rest ih =>
    simp only [splitChar]
    by_cases hc : c = sep
    · simp only [if_pos hc]
      rcases h : splitChar sep rest with _ | ⟨h1, t1⟩
      · exact absurd h (splitChar_ne_nil sep rest)
      · rw [h] at ih
        simp [joinChar, ← ih, hc]
    · simp only [if_neg hc]
      rcases h : splitChar sep rest with _ | ⟨h1, t1⟩
      · exact absurd h (splitChar_ne_nil sep rest)
      · rw [h] at ih
        cases t1 with
        | nil => simp [joinChar] at ih ⊢; exact ih
        | cons h2 t2 => simp [joinChar] at ih ⊢; exact ih

/-- Joining all fields after the first gives everything after the first
separator. -/
lemma joinChar_tail_splitChar (sep : Char) (l : List Char) :
    joinChar sep (splitChar sep l).tail = (l.dropWhile (fun c => c ≠ sep)).drop 1 := by
  induction l with
  | nil => simp [splitChar, joinChar]
  | cons c rest ih =>
    simp only [splitChar]
    by_cases hc : c = sep
    · simp only [if_pos hc, List.tail_cons]
      have : (rest.dropWhile fun c => c ≠ sep).drop 1 = (rest.dropWhile fun c => c ≠ sep).drop 1 := rfl
      simp [List.dropWhile, hc, joinChar_splitChar]
    · simp only [if_neg hc]
      rcases h : splitChar sep rest with _ | ⟨h1, t1⟩
      · exact absurd h (splitChar_ne_nil sep rest)
      · rw [h] at ih
        simp only [List.tail_cons] at ih ⊢
        simp [List.dropWhile, hc, ih]

/-- The split has at least two fields exactly when the separator occurs. -/
lemma splitChar_two_fields_iff (sep : Char) (l : List Char) :
    2 ≤ (splitChar sep l).length ↔ sep ∈ l := by
  induction l with
  | nil => simp [splitChar]
  | cons c rest ih =>
    simp only [splitChar]
    by_cases hc : c = sep
    · simp only [if_pos hc, List.length_cons]
      have h1 : 1 ≤ (splitChar sep rest).length := by
        cases h : splitChar sep rest with
        | nil => exact absurd h (splitChar_ne_nil sep rest)
        | cons a b => simp
      constructor
      · intro _; simp [hc]
      · intro _; omega
    · simp only [if_neg hc]
      rcases h : splitChar sep rest with _ | ⟨h1, t1⟩
      · exact absurd h (splitChar_ne_nil sep rest)
      · rw [h] at ih
        have hmem : sep ∈ c :: rest ↔ sep ∈ rest := by
          simp [List.mem_cons]
          intro hEq
          exact absurd hEq.symm hc
        rw [hmem, ← ih]
        simp

/-! ### Helper lemmas: sorting and orders -/

lemma insertMig_eq_orderedInsert (m : Migration) (l : List Migration) :
    insertMig m l = List.orderedInsert (fun a b => a.Version ≤ b.Version) m l := by
  induction l with
  | nil => rfl
  | cons x xs ih => simp [insertMig, List.orderedInsert, ih]

lemma sortMigs_eq_insertionSort (l : List Migration) :
    sortMigs l = List.insertionSort (fun a b => a.Version ≤ b.Version) l := by
  induction l with
  | nil => rfl
  | cons x xs ih => simp [sortMigs, List.insertionSort, ih, insertMig_eq_orderedInsert]

/-- The catalog sort produces a list whose adjacent versions ascend. -/
lemma sortMigs_chain' (l : List Migration) :
    List.Chain' (fun a b : Migration => a.Version ≤ b.Version) (sortMigs l) := by
  rw [sortMigs_eq_insertionSort]
  exact (List.sorted_insertionSort _ l).chain'

/-- The catalog sort is a permutation of its input. -/
lemma sortMigs_perm (l : List Migration) : List.Perm (sortMigs l) l := by
  rw [sortMigs_eq_insertionSort]
  exact List.perm_insertionSort _ l

lemma insertDesc_eq_orderedInsert (v : Int) (l : List Int) :
    insertDesc v l = List.orderedInsert (fun a b => b ≤ a) v l := by
  induction l with
  | nil => rfl
  | cons x xs ih => simp [insertDesc, List.orderedInsert, ih]

lemma sortDesc_eq_insertionSort (l : List Int) :
    sortDesc l = List.insertionSort (fun a b => b ≤ a) l := by
  induction l with
  | nil => rfl
  | cons x xs ih => simp [sortDesc, List.insertionSort, ih, insertDesc_eq_orderedInsert]

/-- Sorting for `ORDER BY version DESC`: adjacent elements descend. -/
lemma sortDesc_chain' (l : List Int) :
    List.Chain' (fun a b : Int => b ≤ a) (sortDesc l) := by
  rw [sortDesc_eq_insertionSort]
  exact (List.sorted_insertionSort _ l).chain'

lemma sortDesc_perm (l : List Int) : List.Perm (sortDesc l) l := by
  rw [sortDesc_eq_insertionSort]
  exact List.perm_insertionSort _ l

lemma sortDesc_mem (l : List Int) (v : Int) : v ∈ sortDesc l ↔ v ∈ l :=
  (sortDesc_perm l).mem_iff

lemma sortDesc_nodup (l : List Int) (h : l.Nodup) : (sortDesc l).Nodup :=
  ((sortDesc_perm l).nodup_iff).mpr h

/-- A chain for a reflexive-flavoured relation strengthens to its strict
form on a duplicate-free list. -/
lemma chain'_strengthen {α : Type _} {R S : α → α → Prop}
    (h : ∀ a b, R a b → a ≠ b → S a b) :
    ∀ l : List α, List.Chain' R l → l.Nodup → List.Chain' S l
  | [], _, _ => List.chain'_nil
  | [_], _, _ => List.chain'_singleton _
  | a :: b :: t, hc, hnd => by
    rw [List.chain'_cons] at hc ⊢
    have hab : a ≠ b := by
      intro hEq
      have := hnd
      rw [List.nodup_cons] at this
      exact this.1 (hEq ▸ List.mem_cons_self b t)
    exact ⟨h a b hc.1 hab, chain'_strengthen h (b :: t) hc.2 (List.nodup_cons.mp hnd).2⟩

/-- Characterization of the `ORDER BY version DESC LIMIT 1` query: the
returned version is in the ledger and dominates every ledger version. -/
lemma maxLedgerVersion_spec (ledger : List LedgerRow) (v : Int)
    (h : maxLedgerVersion ledger = some v) :
    v ∈ appliedVersions ledger ∧ ∀ x ∈ appliedVersions ledger, x ≤ v := by
  unfold maxLedgerVersion at h
  haveI : Std.Antisymm (fun a b : Int => a ≤ b) :=
    ⟨@fun _ _ h1 h2 => le_antisymm h1 h2⟩
  exact (List.max?_eq_some_iff (le_refl) (fun a b => max_choice a b)
    (fun a b c => max_le_iff)).mp h

/-- An empty ledger has no maximum version. -/
lemma maxLedgerVersion_nil : maxLedgerVersion ([] : List LedgerRow) = none := rfl

/-- A non-empty ledger has a maximum version. -/
lemma maxLedgerVersion_isSome (ledger : List LedgerRow) (h : ledger ≠ []) :
    (maxLedgerVersion ledger).isSome := by
  unfold maxLedgerVersion
  cases ledger with
  | nil => exact absurd rfl h
  | cons r rest => simp [List.max?]

/-! ### Helper lemmas: applying migrations -/

/-- An empty script for the requested direction fails before the transaction
is begun: the state (rows, schema, transaction counter) is returned intact. -/
lemma applyMigration_empty_sql {σ : Type} (exec : Exec σ) (m : Migration)
    (d : Direction) (st : DBState σ) (h : directionSQL d m = "") :
    applyMigration exec m d st = (st, some (.missingScript d m.Version)) := by
  simp [applyMigration, h]

/-- Successful upward application, explicit form. -/
lemma applyMigration_up_eq_ok {σ : Type} (exec : Exec σ) (m : Migration)
    (st : DBState σ) (sch' : σ) (h1 : m.UpSQL ≠ "")
    (h2 : exec m.UpSQL st.schema = some sch')
    (h3 : ((appliedVersions st.ledger).contains m.Version) = false) :
    applyMigration exec m .up st =
      (⟨st.tableEnsured, st.ledger ++ [⟨m.Version, m.Name⟩], sch', st.txCount + 1⟩, none) := by
  have hmem : m.Version ∉ appliedVersions st.ledger := by simpa using h3
  simp [applyMigration, directionSQL, h1, h2, hmem]

/-- Inversion of a successful upward application. -/
lemma applyMigration_up_ok_inv {σ : Type} (exec : Exec σ) (m : Migration)
    (st st' : DBState σ) (h : applyMigration exec m .up st = (st', none)) :
    m.UpSQL ≠ "" ∧ ((appliedVersions st.ledger).contains m.Version) = false ∧
      ∃ sch', exec m.UpSQL st.schema = some sch' ∧
        st' = ⟨st.tableEnsured, st.ledger ++ [⟨m.Version, m.Name⟩], sch', st.txCount + 1⟩ := by
  by_cases h1 : m.UpSQL = ""
  · rw [applyMigration_empty_sql exec m .up st (by simp [directionSQL, h1])] at h
    simp at h
  · simp only [applyMigration, directionSQL, if_neg h1] at h
    cases h2 : exec m.UpSQL st.schema with
    | none => rw [h2] at h; simp at h
    | some sch' =>
      rw [h2] at h
      by_cases hmem : m.Version ∈ appliedVersions st.ledger
      · simp [hmem] at h
      · simp [hmem] at h
        exact ⟨h1, by simpa using hmem, sch', rfl, h.symm⟩

/-- Every failing application leaves the rows and the schema untouched (the
transaction, if one was begun, is rolled back). -/
lemma applyMigration_err_frame {σ : Type} (exec : Exec σ) (m : Migration)
    (d : Direction) (st st' : DBState σ) (e : MigError)
    (h : applyMigration exec m d st = (st', some e)) :
    st'.ledger = st.ledger ∧ st'.schema = st.schema ∧
      st'.tableEnsured = st.tableEnsured := by
  by_cases h1 : directionSQL d m = ""
  · rw [applyMigration_empty_sql exec m d st h1] at h
    cases h
    exact ⟨rfl, rfl, rfl⟩
  · simp only [applyMigration, if_neg h1] at h
    cases h2 : exec (directionSQL d m) st.schema with
    | none =>
      rw [h2] at h
      cases h
      exact ⟨rfl, rfl, rfl⟩
    | some sch' =>
      rw [h2] at h
      cases d with
      | up =>
        by_cases hmem : m.Version ∈ appliedVersions st.ledger
        · simp [hmem] at h
          obtain ⟨hst, herr⟩ := h
          subst hst
          exact ⟨rfl, rfl, rfl⟩
        · simp [hmem] at h
      | down => simp at h

/-- A successful run of the `Up` loop appends exactly one ledger row per
migration, in list order, and touches nothing else about the bookkeeping. -/
lemma applyAll_ok_ledger {σ : Type} (exec : Exec σ) :
    ∀ (ms : List Migration) (st st' : DBState σ),
      applyAll exec ms st = (st', none) →
      st'.ledger = st.ledger ++ ms.map (fun m => LedgerRow.mk m.Version m.Name) ∧
        st'.tableEnsured = st.tableEnsured
  | [], st, st', h => by
    simp [applyAll] at h
    simp [← h]
  | m :: rest, st, st', h => by
    simp only [applyAll] at h
    cases hm : applyMigration exec m .up st with
    | mk st1 err =>
      rw [hm] at h
      cases err with
      | none =>
        obtain ⟨_, _, sch', _, hst1⟩ := applyMigration_up_ok_inv exec m st st1 hm
        obtain ⟨hl, ht⟩ := applyAll_ok_ledger exec rest st1 st' h
        subst hst1
        simp at hl ht
        simp [hl, ht]
      | some e => simp at h

/-- A failing run of the `Up` loop splits as: a successful prefix, the failing
migration (which contributes neither ledger row nor schema change), and a
suffix that is never attempted. -/
lemma applyAll_err_split {σ : Type} (exec : Exec σ) :
    ∀ (ms : List Migration) (st st' : DBState σ) (e : MigError),
      applyAll exec ms st = (st', some e) →
      ∃ pre m post stp, ms = pre ++ m :: post ∧
        applyAll exec pre st = (stp, none) ∧
        applyMigration exec m .up stp = (st', some e)
  | [], st, st', e, h => by simp [applyAll] at h
  | m :: rest, st, st', e, h => by
    simp only [applyAll] at h
    cases hm : applyMigration exec m .up st with
    | mk st1 err =>
      rw [hm] at h
      cases err with
      | none =>
        obtain ⟨pre, m', post, stp, hsplit, hpre, hfail⟩ :=
          applyAll_err_split exec rest st1 st' e h
        refine ⟨m :: pre, m', post, stp, by simp [hsplit], ?_, hfail⟩
        simp only [applyAll, hm]
        exact hpre
      | some e' =>
        simp at h
        exact ⟨[], m, rest, st, rfl, by simp [applyAll], by rw [hm, h.1, h.2]⟩

/-- Constructive success of the `Up` loop: non-empty scripts, an engine that
accepts every statement, duplicate-free versions none of which is already
applied. -/
lemma applyAll_succeeds {σ : Type} (exec : Exec σ)
    (hex : ∀ s sch, (exec s sch).isSome) :
    ∀ (ms : List Migration) (st : DBState σ),
      (∀ m ∈ ms, m.UpSQL ≠ "") →
      (ms.map (·.Version)).Nodup →
      (∀ m ∈ ms, m.Version ∉ appliedVersions st.ledger) →
      ∃ st', applyAll exec ms st = (st', none)
  | [], st, _, _, _ => ⟨st, rfl⟩
  | m :: rest, st, hsql, hnd, hfresh => by
    cases h2 : exec m.UpSQL st.schema with
    | none => exact absurd (congrArg Option.isSome h2) (by simp [hex m.UpSQL st.schema])
    | some sch' =>
      have h3 : ((appliedVersions st.ledger).contains m.Version) = false := by
        have := hfresh m (List.mem_cons_self m rest)
        simpa using this
      have hup := applyMigration_up_eq_ok exec m st sch'
        (hsql m (List.mem_cons_self m rest)) h2 h3
      have hnd' : (rest.map (·.Version)).Nodup := by
        simp only [List.map_cons, List.nodup_cons] at hnd
        exact hnd.2
      have hfresh' : ∀ m' ∈ rest,
          m'.Version ∉ appliedVersions (st.ledger ++ [LedgerRow.mk m.Version m.Name]) := by
        intro m' hm'
        simp only [appliedVersions, List.map_append, List.mem_append] at *
        rintro (hin | hin)
        · exact hfresh m' (List.mem_cons_of_mem m hm') (by simpa [appliedVersions] using hin)
        · simp at hin
          have : m.Version ∉ rest.map (·.Version) := by
            simp only [List.map_cons, List.nodup_cons] at hnd
            exact hnd.1
          exact this (hin ▸ List.mem_map_of_mem (·.Version) hm')
      obtain ⟨st', hst'⟩ := applyAll_succeeds exec hex rest
        ⟨st.tableEnsured, st.ledger ++ [LedgerRow.mk m.Version m.Name], sch', st.txCount + 1⟩
        (fun m' hm' => hsql m' (List.mem_cons_of_mem m hm')) hnd' hfresh'
      refine ⟨st', ?_⟩
      simp only [applyAll, hup]
      exact hst'

/-- Successful downward application, explicit form. -/
lemma applyMigration_down_eq_ok {σ : Type} (exec : Exec σ) (m : Migration)
    (st : DBState σ) (sch' : σ) (h1 : m.DownSQL ≠ "")
    (h2 : exec m.DownSQL st.schema = some sch') :
    applyMigration exec m .down st =
      (⟨st.tableEnsured, st.ledger.filter (fun r => r.version ≠ m.Version), sch',
        st.txCount + 1⟩, none) := by
  simp [applyMigration, directionSQL, h1, h2]

/-- A catalog lookup hit returns a record of the version looked up. -/
lemma lookupLast_version (migs : List Migration) (v : Int) (m : Migration)
    (h : lookupLast migs v = some m) : m.Version = v := by
  have := List.find?_some h
  simpa using this

/-- What the rollback loop of `Reset` does when every version found in the
catalog has a usable down script and the engine accepts every statement:
it succeeds; the versions missing from the catalog are warned about, in
order, and keep their rows; the rows of the versions found are removed; the
down scripts of the versions found run in list order. -/
lemma resetLoop_spec {σ : Type} (exec : Exec σ) (migs : List Migration)
    (hex : ∀ s sch, (exec s sch).isSome) :
    ∀ (vs : List Int) (st : DBState σ),
      (∀ v ∈ vs, ∀ m, lookupLast migs v = some m → m.DownSQL ≠ "") →
      ∃ st', resetLoop exec migs vs st =
          (st', none, vs.filter (fun v => (lookupLast migs v).isNone)) ∧
        st'.ledger = st.ledger.filter
          (fun r => !(vs.contains r.version && (lookupLast migs r.version).isSome)) ∧
        applyScripts exec
          (vs.filterMap (fun v => (lookupLast migs v).map (·.DownSQL))) st.schema
          = some st'.schema ∧
        st'.tableEnsured = st.tableEnsured
  | [], st, _ => by
    refine ⟨st, rfl, ?_, rfl, rfl⟩
    simp
  | v :: rest, st, hdown => by
    cases hl : lookupLast migs v with
    | none =>
      obtain ⟨st', hrun, hledger, hscripts, htable⟩ :=
        resetLoop_spec exec migs hex rest st
          (fun v' hv' m hm => hdown v' (List.mem_cons_of_mem v hv') m hm)
      refine ⟨st', ?_, ?_, ?_, htable⟩
      · simp only [resetLoop, hl, hrun, List.filter_cons]
        simp [hl]
      · rw [hledger]
        refine List.filter_congr ?_
        intro r _
        by_cases hrv : r.version = v
        · rw [hrv, hl]
          simp
        · simp [hrv]
      · rw [← hscripts]
        simp [hl]
    | some m =>
      have hm : m.DownSQL ≠ "" := hdown v (List.mem_cons_self v rest) m hl
      have hmv : m.Version = v := lookupLast_version migs v m hl
      cases hexec : exec m.DownSQL st.schema with
      | none => exact absurd (congrArg Option.isSome hexec) (by simp [hex m.DownSQL st.schema])
      | some sch1 =>
        have hstep := applyMigration_down_eq_ok exec m st sch1 hm hexec
        obtain ⟨st', hrun, hledger, hscripts, htable⟩ :=
          resetLoop_spec exec migs hex rest
            ⟨st.tableEnsured, st.ledger.filter (fun r => r.version ≠ m.Version), sch1,
              st.txCount + 1⟩
            (fun v' hv' m' hm' => hdown v' (List.mem_cons_of_mem v hv') m' hm')
        refine ⟨st', ?_, ?_, ?_, htable⟩
        · simp only [resetLoop, hl, hstep, hrun, List.filter_cons]
          simp [hl]
        · rw [hledger]
          simp only [List.filter_filter]
          refine List.filter_congr ?_
          intro r _
          by_cases hrv : r.version = v
          · rw [hrv, hl]
            simp [hmv, hrv]
          · simp [hrv, hmv]
        · simp only [List.filterMap_cons, hl, Option.map_some]
          simp only [applyScripts, hexec]
          exact hscripts

/-- Ensuring an already ensured table changes nothing. -/
lemma ensureTable_eq_self {σ : Type} (st : DBState σ) (h : st.tableEnsured = true) :
    ensureTable st = st := by
  cases st
  simp only [ensureTable]
  simp_all

/-- After a successful `Up`, every catalog version has a ledger row, so the
pending set recomputed on the resulting state is empty. -/
lemma pendingMigs_after_up_ok {σ : Type} (exec : Exec σ) (migs : List Migration)
    (st st1 : DBState σ)
    (h : applyAll exec (pendingMigs migs st.ledger) (ensureTable st) = (st1, none)) :
    pendingMigs migs st1.ledger = [] := by
  obtain ⟨hl, _⟩ := applyAll_ok_ledger exec (pendingMigs migs st.ledger) (ensureTable st) st1 h
  rw [pendingMigs, List.filter_eq_nil_iff]
  intro m hm
  simp only [Bool.not_eq_true, Bool.not_eq_true']
  have : m.Version ∈ appliedVersions st1.ledger := by
    rw [hl]
    simp only [appliedVersions, List.map_append, List.mem_append]
    by_cases hap : m.Version ∈ appliedVersions st.ledger
    · left
      simpa [appliedVersions, ensureTable] using hap
    · right
      have hpend : m ∈ pendingMigs migs st.ledger := by
        simp only [pendingMigs, List.mem_filter]
        exact ⟨hm, by simpa using hap⟩
      simp only [List.map_map]
      exact List.mem_map_of_mem (fun m => (LedgerRow.mk m.Version m.Name).version) hpend
  simpa using this

/-- A successfully loaded catalog is sorted by ascending version. -/
lemma load_ok_sorted (dir : Option (List MFile)) (migs : List Migration)
    (h : loadMigrations dir = .ok migs) :
    List.Chain' (fun a b : Migration => a.Version ≤ b.Version) migs := by
  cases dir with
  | none => simp [loadMigrations] at h
  | some files =>
    simp only [loadMigrations, Except.ok.injEq] at h
    rw [← h]
    exact sortMigs_chain' _

/-! ### Claim theorems -/

/-- C6: for every migration and direction, if the script text for that
direction is empty, applying the migration fails with the MissingScript error
before any transaction is opened — the returned state is the input state
itself, so the ledger rows, the schema and the transaction counter are all
unchanged — and the error is reported rather than the migration being
silently skipped. -/
theorem apply_empty_script_fails_before_transaction {σ : Type} (exec : Exec σ)
    (m : Migration) (d : Direction) (st : DBState σ)
    (h : directionSQL d m = "") :
    applyMigration exec m d st = (st, some (.missingScript d m.Version)) :=
  applyMigration_empty_sql exec m d st h

/-- Witness for the empty-script theorem: a migration with no up script,
applied upward on a fresh database, fails with MissingScript and changes
nothing. -/
theorem apply_empty_script_fails_before_transaction_witness :
    directionSQL .up ⟨1, "a", "", "drop table t"⟩ = "" ∧
    applyMigration execId ⟨1, "a", "", "drop table t"⟩ .up ⟨false, [], (), 0⟩ =
      (⟨false, [], (), 0⟩, some (.missingScript .up 1)) :=
  ⟨rfl, apply_empty_script_fails_before_transaction execId ⟨1, "a", "", "drop table t"⟩
    .up ⟨false, [], (), 0⟩ rfl⟩

/-- C10: when the directory walk reports an error (e.g. the migrations
directory does not exist), `Up` and `Status` both fail with that error and
perform no migration work: the only state change is the idempotent ledger
table bootstrap, which runs before the directory is read. -/
theorem walk_error_fails_up_and_status {σ : Type} (exec : Exec σ) (st : DBState σ) :
    UpOp exec none st = (ensureTable st, some .walkFailed) ∧
    StatusOp none st = ((ensureTable st : DBState σ), .error .walkFailed) :=
  ⟨rfl, rfl⟩

/-- C2 (code bug): loading the canonical paired catalog — `001_init.up.sql`
plus `001_init.down.sql` — does NOT merge the two halves into one Migration
carrying both scripts: it yields two records for version 1, the down half
with an empty up script and the up half with an empty down script. -/
theorem load_paired_catalog_yields_two_half_records :
    loadMigrations pairedDir =
      .ok [⟨1, "init", "", "drop table t"⟩, ⟨1, "init", "create table t", ""⟩] := by
  rfl

/-- C1 (counterexample): on the canonical paired catalog with an empty ledger
and an engine that accepts every statement, `Up` does not succeed: the
down-half record of version 1 has an empty up script, so the run fails with
MissingScript and the ledger stays empty instead of containing version 1. -/
theorem up_on_paired_catalog_errors :
    UpOp execId pairedDir ⟨false, [], (), 0⟩ =
      (⟨true, [], (), 0⟩, some (.missingScript .up 1)) := by
  rfl

/-- C7 (counterexample): a filename whose leading token is `-1` — not a
non-negative integer — is not rejected with InvalidVersion: `strconv.Atoi`
accepts the sign, so the parser succeeds and returns version `-1`. -/
theorem parse_negative_version_accepted :
    parseMigrationFile ("-1_init.up.sql") ("x") = .ok ⟨-1, "init", "x", ""⟩ := by
  rfl

/-- C4 (counterexample): a non-empty ledger on which `Down` removes no row at
all: version 1 is applied but the catalog directory is empty, so `Down`
fails with MigrationFileMissing and the ledger keeps its row, contradicting
"removes exactly one ledger row". -/
theorem down_nonempty_ledger_can_remove_nothing :
    DownOp execId (some []) ⟨false, [⟨1, "init"⟩], (), 0⟩ =
      (⟨true, [⟨1, "init"⟩], (), 0⟩, some (.migrationFileMissing 1)) := by
  rfl

/-- C3: when `Up` fails, the pending list splits into a successfully committed
prefix, the failing migration, and a never-attempted suffix; the failing
migration's transaction leaves no trace — the final ledger rows and schema
are exactly those after the successful prefix. -/
theorem up_loop_fail_fast_atomic {σ : Type} (exec : Exec σ)
    (dir : Option (List MFile)) (st st' : DBState σ) (e : MigError)
    (migs : List Migration)
    (hload : loadMigrations dir = .ok migs)
    (hrun : UpOp exec dir st = (st', some e)) :
    ∃ pre m post stp,
      pendingMigs migs st.ledger = pre ++ m :: post ∧
      applyAll exec pre (ensureTable st) = (stp, none) ∧
      applyMigration exec m .up stp = (st', some e) ∧
      st'.ledger = stp.ledger ∧ st'.schema = stp.schema := by
  have hrun' : applyAll exec (pendingMigs migs st.ledger) (ensureTable st) = (st', some e) := by
    simp only [UpOp, hload] at hrun
    by_cases hp : (pendingMigs migs (ensureTable st).ledger).isEmpty
    · rw [if_pos hp] at hrun
      simp at hrun
    · rw [if_neg hp] at hrun
      exact hrun
  obtain ⟨pre, m, post, stp, hsplit, hpre, hfail⟩ :=
    applyAll_err_split exec (pendingMigs migs st.ledger) (ensureTable st) st' e hrun'
  obtain ⟨hl, hs, _⟩ := applyMigration_err_frame exec m .up stp st' e hfail
  exact ⟨pre, m, post, stp, hsplit, hpre, hfail, hl, hs⟩

/-- Witness for the fail-fast theorem: three up migrations whose middle
script is rejected by the engine; the run stops at version 2 with only
version 1 committed. -/
theorem up_loop_fail_fast_atomic_witness :
    ∃ pre m post stp,
      pendingMigs upFailMigs freshDB.ledger = pre ++ m :: post ∧
      applyAll boomExec pre (ensureTable freshDB) = (stp, none) ∧
      applyMigration boomExec m .up stp = (upFailStopSt, some (.execFailed 2 .up)) ∧
      upFailStopSt.ledger = stp.ledger ∧ upFailStopSt.schema = stp.schema :=
  up_loop_fail_fast_atomic boomExec upFailDir freshDB upFailStopSt (.execFailed 2 .up)
    upFailMigs (by rfl) (by rfl)

/-- C5: if `Up` succeeds, running it again with the same directory contents
computes an empty pending set and returns the state unchanged — in
particular the ledger rows, the schema and the transaction counter are
identical, so no transaction is opened by the second run. -/
theorem up_twice_second_run_no_work {σ : Type} (exec : Exec σ)
    (dir : Option (List MFile)) (st st1 : DBState σ)
    (h : UpOp exec dir st = (st1, none)) :
    UpOp exec dir st1 = (st1, none) ∧
    ∃ migs, loadMigrations dir = .ok migs ∧ pendingMigs migs st1.ledger = [] := by
  cases hload : loadMigrations dir with
  | error e =>
    simp only [UpOp, hload] at h
    simp at h
  | ok migs =>
    simp only [UpOp, hload] at h
    by_cases hp : (pendingMigs migs (ensureTable st).ledger).isEmpty
    · rw [if_pos hp] at h
      have hst1 : st1 = ensureTable st := by
        have := congrArg Prod.fst h
        simpa using this.symm
      have hpend : pendingMigs migs st1.ledger = [] := by
        rw [hst1]
        exact List.isEmpty_iff.mp hp
      refine ⟨?_, migs, rfl, hpend⟩
      simp only [UpOp, hload]
      have hp1 : (pendingMigs migs (ensureTable st1).ledger).isEmpty = true := by
        simpa [List.isEmpty_iff, ensureTable] using hpend
      rw [if_pos hp1]
      rw [ensureTable_eq_self st1 (by rw [hst1]; rfl)]
    · rw [if_neg hp] at h
      have hpend := pendingMigs_after_up_ok exec migs st st1 h
      refine ⟨?_, migs, rfl, hpend⟩
      simp only [UpOp, hload]
      have hp1 : (pendingMigs migs (ensureTable st1).ledger).isEmpty = true := by
        simpa [List.isEmpty_iff, ensureTable] using hpend
      rw [if_pos hp1]
      obtain ⟨_, ht⟩ := applyAll_ok_ledger exec _ _ _ h
      rw [ensureTable_eq_self st1 (by rw [ht]; rfl)]

/-- Witness for the idempotence theorem: after one successful `Up` of a
one-migration catalog, the second run returns the same state and the pending
set is empty. -/
theorem up_twice_second_run_no_work_witness :
    UpOp traceExec upOnceDir upOnceSt = (upOnceSt, none) ∧
    ∃ migs, loadMigrations upOnceDir = .ok migs ∧ pendingMigs migs upOnceSt.ledger = [] :=
  up_twice_second_run_no_work traceExec upOnceDir freshDB upOnceSt (by rfl)

/-- C1 (amended): for a catalog all of whose loaded records carry a non-empty
up script and pairwise distinct versions — e.g. a catalog of up-half files —
and an engine that accepts every statement, `Up` from an empty ledger
succeeds and the final ledger lists exactly the catalog's versions, in
strictly ascending order of application (ledger rows are in application
order). -/
theorem up_empty_ledger_applies_catalog_in_order {σ : Type} (exec : Exec σ)
    (dir : Option (List MFile)) (st : DBState σ) (migs : List Migration)
    (hload : loadMigrations dir = .ok migs)
    (hsql : ∀ m ∈ migs, m.UpSQL ≠ "")
    (hnd : (migs.map (·.Version)).Nodup)
    (hex : ∀ s sch, (exec s sch).isSome)
    (hempty : st.ledger = []) :
    ∃ st', UpOp exec dir st = (st', none) ∧
      appliedVersions st'.ledger = migs.map (·.Version) ∧
      List.Chain' (· < ·) (appliedVersions st'.ledger) := by
  have hpend : pendingMigs migs (ensureTable st).ledger = migs := by
    have : (ensureTable st).ledger = [] := by simpa [ensureTable] using hempty
    simp [pendingMigs, appliedVersions, this]
  have hchain : List.Chain' (· < ·) (migs.map (·.Version)) := by
    have hle : List.Chain' (fun a b : Int => a ≤ b) (migs.map (·.Version)) := by
      rw [List.chain'_map]
      exact load_ok_sorted dir migs hload
    exact chain'_strengthen (fun a b h1 h2 => lt_of_le_of_ne h1 h2) _ hle hnd
  obtain ⟨st', hok⟩ := applyAll_succeeds exec hex migs (ensureTable st) hsql hnd
    (by intro m _; simp [appliedVersions, ensureTable, hempty])
  obtain ⟨hl, _⟩ := applyAll_ok_ledger exec migs (ensureTable st) st' hok
  have hver : appliedVersions st'.ledger = migs.map (·.Version) := by
    rw [hl]
    simp [appliedVersions, ensureTable, hempty, List.map_map]
  refine ⟨st', ?_, hver, by rw [hver]; exact hchain⟩
  simp only [UpOp, hload, hpend]
  cases migs with
  | nil => simpa [applyAll] using hok
  | cons m rest => simpa using hok

/-- Witness for the ascending-application theorem: a two-migration up-only
catalog on a fresh database. -/
theorem up_empty_ledger_applies_catalog_in_order_witness :
    ∃ st', UpOp traceExec upTwoDir freshDB = (st', none) ∧
      appliedVersions st'.ledger =
        [Migration.mk 1 "a" "alpha" "", Migration.mk 2 "b" "beta" ""].map (·.Version) ∧
      List.Chain' (· < ·) (appliedVersions st'.ledger) :=
  up_empty_ledger_applies_catalog_in_order traceExec upTwoDir freshDB
    [⟨1, "a", "alpha", ""⟩, ⟨2, "b", "beta", ""⟩] (by rfl)
    (by intro m hm; fin_cases hm <;> simp)
    (by decide) (fun _ _ => rfl) rfl

/-- C4 (amended): on an empty ledger `Down` is a successful no-op (only the
idempotent table bootstrap runs).  On a non-empty ledger, provided the
catalog holds a usable down migration for the greatest applied version and
the engine accepts its script, `Down` succeeds and removes exactly the
ledger row carrying the maximum version — maximum by version number, which
need not be the most recently inserted row. -/
theorem down_removes_exactly_max_version_row {σ : Type} (exec : Exec σ)
    (dir : Option (List MFile)) (st : DBState σ) :
    (st.ledger = [] → DownOp exec dir st = (ensureTable st, none)) ∧
    (∀ (v : Int) (migs : List Migration) (tgt : Migration) (sch' : σ),
      maxLedgerVersion st.ledger = some v →
      loadMigrations dir = .ok migs →
      migs.find? (fun m => m.Version = v) = some tgt →
      tgt.DownSQL ≠ "" →
      exec tgt.DownSQL st.schema = some sch' →
      DownOp exec dir st =
        (⟨true, st.ledger.filter (fun r => r.version ≠ v), sch', st.txCount + 1⟩, none) ∧
      v ∈ appliedVersions st.ledger ∧
      (∀ x ∈ appliedVersions st.ledger, x ≤ v) ∧
      ((appliedVersions st.ledger).Nodup →
        (st.ledger.filter (fun r => r.version = v)).length = 1)) := by
  constructor
  · intro hempty
    simp [DownOp, hempty, maxLedgerVersion, ensureTable]
  · intro v migs tgt sch' hmax hload hfind hsql hexec
    obtain ⟨hmem, hle⟩ := maxLedgerVersion_spec st.ledger v hmax
    have htv : tgt.Version = v := by
      have := List.find?_some hfind
      simpa using this
    refine ⟨?_, hmem, hle, ?_⟩
    · have hstep := applyMigration_down_eq_ok exec tgt (ensureTable st) sch' hsql hexec
      simp only [DownOp]
      have hmax' : maxLedgerVersion (ensureTable st).ledger = some v := hmax
      simp only [hmax', hload, hfind, hstep]
      simp [ensureTable, htv]
    · intro hnd
      have hcount : (appliedVersions st.ledger).count v = 1 :=
        List.count_eq_one_of_mem hnd hmem
      calc (st.ledger.filter (fun r => r.version = v)).length
          = List.countP (fun r => decide (r.version = v)) st.ledger :=
            (List.countP_eq_length_filter _ _).symm
        _ = (appliedVersions st.ledger).count v := by
            unfold appliedVersions
            rw [List.count, List.countP_map]
            rfl
        _ = 1 := hcount

/-- Witness for the `Down` theorem: the empty-ledger no-op, and a ledger
holding versions 2, 5, 3 in that application order where `Down` removes
version 5 — the maximum by version number, not the last row inserted. -/
theorem down_removes_exactly_max_version_row_witness :
    DownOp execId (some []) ⟨false, [], (), 0⟩ = (ensureTable ⟨false, [], (), 0⟩, none) ∧
    (DownOp traceExec downDir downSt =
      (⟨true, downSt.ledger.filter (fun r => r.version ≠ 5), ["drop e"],
        downSt.txCount + 1⟩, none) ∧
     (5 : Int) ∈ appliedVersions downSt.ledger ∧
     (∀ x ∈ appliedVersions downSt.ledger, x ≤ 5) ∧
     ((appliedVersions downSt.ledger).Nodup →
       (downSt.ledger.filter (fun r => r.version = 5)).length = 1)) :=
  ⟨(down_removes_exactly_max_version_row execId (some []) ⟨false, [], (), 0⟩).1 rfl,
   (down_removes_exactly_max_version_row traceExec downDir downSt).2 5
     [⟨5, "e", "", "drop e"⟩] ⟨5, "e", "", "drop e"⟩ ["drop e"]
     (by rfl) (by rfl) (by rfl) (by decide) (by rfl)⟩

/-- C8: `Reset` walks the applied versions in strictly descending version
order; every applied version missing from the catalog is warned about and
skipped — its ledger row survives and no script of it runs — while the
versions present in the catalog have their down scripts executed in that
descending order and their rows removed.  (Stated for an engine that accepts
every statement and a catalog whose found migrations have usable down
scripts, so that the loop runs to completion.) -/
theorem reset_descending_skips_missing {σ : Type} (exec : Exec σ)
    (dir : Option (List MFile)) (st : DBState σ) (migs : List Migration)
    (hload : loadMigrations dir = .ok migs)
    (hnd : (appliedVersions st.ledger).Nodup)
    (hdown : ∀ v ∈ appliedVersions st.ledger, ∀ m, lookupLast migs v = some m → m.DownSQL ≠ "")
    (hex : ∀ s sch, (exec s sch).isSome) :
    ∃ st', ResetOp exec dir st =
        (st', none,
         (sortDesc (appliedVersions st.ledger)).filter (fun v => (lookupLast migs v).isNone)) ∧
      st'.ledger = st.ledger.filter (fun r => (lookupLast migs r.version).isNone) ∧
      applyScripts exec ((sortDesc (appliedVersions st.ledger)).filterMap
        (fun v => (lookupLast migs v).map (·.DownSQL))) st.schema = some st'.schema ∧
      List.Chain' (· > ·) (sortDesc (appliedVersions st.ledger)) := by
  have hchain : List.Chain' (· > ·) (sortDesc (appliedVersions st.ledger)) :=
    chain'_strengthen (fun a b h1 h2 => lt_of_le_of_ne h1 (Ne.symm h2)) _
      (sortDesc_chain' _) (sortDesc_nodup _ hnd)
  by_cases hemp : st.ledger = []
  · refine ⟨ensureTable st, ?_, ?_, ?_, hchain⟩
    · simp [ResetOp, hemp, appliedVersions, sortDesc, ensureTable]
    · simp [ensureTable, hemp]
    · simp [hemp, appliedVersions, sortDesc, applyScripts, ensureTable]
  · have hvers_ne : sortDesc (appliedVersions st.ledger) ≠ [] := by
      intro h0
      apply hemp
      have hperm := sortDesc_perm (appliedVersions st.ledger)
      rw [h0] at hperm
      have : appliedVersions st.ledger = [] := hperm.symm.eq_nil
      simpa [appliedVersions] using this
    obtain ⟨st', hrun, hledger, hscripts, _⟩ :=
      resetLoop_spec exec migs hex (sortDesc (appliedVersions st.ledger)) (ensureTable st)
        (fun v hv m hm => hdown v ((sortDesc_mem _ v).mp hv) m hm)
    refine ⟨st', ?_, ?_, ?_, hchain⟩
    · simp only [ResetOp]
      have hne' : (sortDesc (appliedVersions (ensureTable st).ledger)).isEmpty = false := by
        cases h : (sortDesc (appliedVersions (ensureTable st).ledger)).isEmpty with
        | false => rfl
        | true => exact absurd (List.isEmpty_iff.mp h) hvers_ne
      simp only [hne', Bool.false_eq_true, if_false, hload]
      exact hrun
    · rw [hledger]
      refine List.filter_congr ?_
      intro r hr
      have hrmem : r.version ∈ appliedVersions st.ledger :=
        List.mem_map_of_mem (·.version) hr
      have hcont : (sortDesc (appliedVersions st.ledger)).contains r.version = true := by
        simpa using (sortDesc_mem _ r.version).mpr hrmem
      rw [hcont]
      cases lookupLast migs r.version <;> simp
    · exact hscripts

/-- Witness for the `Reset` theorem: versions 1, 3, 2 applied in that order,
down files only for 1 and 3; the run warns about 2 and keeps its row, and the
trace shows `d3` before `d1` — descending version order. -/
theorem reset_descending_skips_missing_witness :
    ∃ st', ResetOp traceExec resetDir resetSt =
        (st', none,
         (sortDesc (appliedVersions resetSt.ledger)).filter
           (fun v => (lookupLast [⟨1, "a", "", "d1"⟩, ⟨3, "c", "", "d3"⟩] v).isNone)) ∧
      st'.ledger = resetSt.ledger.filter
        (fun r => (lookupLast [⟨1, "a", "", "d1"⟩, ⟨3, "c", "", "d3"⟩] r.version).isNone) ∧
      applyScripts traceExec ((sortDesc (appliedVersions resetSt.ledger)).filterMap
        (fun v => (lookupLast [⟨1, "a", "", "d1"⟩, ⟨3, "c", "", "d3"⟩] v).map (·.DownSQL)))
        resetSt.schema = some st'.schema ∧
      List.Chain' (· > ·) (sortDesc (appliedVersions resetSt.ledger)) :=
  reset_descending_skips_missing traceExec resetDir resetSt
    [⟨1, "a", "", "d1"⟩, ⟨3, "c", "", "d3"⟩] (by rfl) (by decide)
    (by
      intro v hv m hm
      fin_cases hv <;> simp_all [lookupLast, List.find?] <;> subst hm <;> decide)
    (fun _ _ => rfl)

/-- C9: `Status` never mutates the rows or the schema: whatever the starting
state and directory, the resulting state is exactly the input with the
idempotent table bootstrap applied — same ledger rows, same schema, same
transaction count.  When the catalog loads, the report covers exactly the
catalog's versions in order, and an entry reads `applied` precisely when its
version has a ledger row, `pending` precisely when it has none. -/
theorem status_reports_without_mutation {σ : Type} (dir : Option (List MFile))
    (st : DBState σ) :
    (StatusOp dir st).1 = ensureTable st ∧
    (StatusOp dir st).1.ledger = st.ledger ∧
    (StatusOp dir st).1.schema = st.schema ∧
    (StatusOp dir st).1.txCount = st.txCount ∧
    (∀ migs, loadMigrations dir = .ok migs →
      ∃ rep, (StatusOp dir st).2 = .ok rep ∧
        rep.map (·.version) = migs.map (·.Version) ∧
        ∀ en ∈ rep,
          (en.status = "applied" ↔ en.version ∈ appliedVersions st.ledger) ∧
          (en.status = "pending" ↔ en.version ∉ appliedVersions st.ledger)) := by
  have hfst : (StatusOp dir st).1 = ensureTable st := by
    cases hload : loadMigrations dir <;> simp [StatusOp, hload]
  refine ⟨hfst, by rw [hfst]; rfl, by rw [hfst]; rfl, by rw [hfst]; rfl, ?_⟩
  intro migs hload
  refine ⟨migs.map (fun m =>
    ⟨m.Version, m.Name,
      if (appliedVersions (ensureTable st).ledger).contains m.Version
      then ("applied") else ("pending")⟩), ?_, ?_, ?_⟩
  · simp [StatusOp, hload]
  · simp [List.map_map]
  · intro en hen
    obtain ⟨m, _, hm⟩ := List.mem_map.mp hen
    by_cases hmem : m.Version ∈ appliedVersions st.ledger
    · have : en.status = "applied" ∧ en.version = m.Version := by
        rw [← hm]
        simp [ensureTable, hmem]
      rw [this.1, this.2]
      constructor
      · simp [hmem]
      · constructor
        · intro h; exact absurd h (by decide)
        · intro h; exact absurd hmem h
    · have : en.status = "pending" ∧ en.version = m.Version := by
        rw [← hm]
        simp [ensureTable, hmem]
      rw [this.1, this.2]
      constructor
      · constructor
        · intro h; exact absurd h (by decide)
        · intro h; exact absurd h hmem
      · simp [hmem]

/-- Witness for the `Status` theorem: a paired catalog over a one-row ledger;
both halves of version 1 are reported `applied` and the state is only
table-bootstrapped. -/
theorem status_reports_without_mutation_witness :
    (StatusOp pairedDir ⟨false, [⟨1, "init"⟩], (), 0⟩).1 =
      ensureTable ⟨false, [⟨1, "init"⟩], (), 0⟩ ∧
    ∃ rep, (StatusOp pairedDir ⟨false, [⟨1, "init"⟩], (), 0⟩).2 = .ok rep ∧
      rep.map (·.version) =
        [Migration.mk 1 "init" "" "drop table t",
         Migration.mk 1 "init" "create table t" ""].map (·.Version) ∧
      ∀ en ∈ rep,
        (en.status = "applied" ↔
          en.version ∈ appliedVersions (DBState.ledger (σ := Unit) ⟨false, [⟨1, "init"⟩], (), 0⟩)) ∧
        (en.status = "pending" ↔
          en.version ∉ appliedVersions (DBState.ledger (σ := Unit) ⟨false, [⟨1, "init"⟩], (), 0⟩)) :=
  ⟨(status_reports_without_mutation pairedDir ⟨false, [⟨1, "init"⟩], (), 0⟩).1,
   (status_reports_without_mutation pairedDir ⟨false, [⟨1, "init"⟩], (), 0⟩).2.2.2.2
     [⟨1, "init", "", "drop table t"⟩, ⟨1, "init", "create table t", ""⟩] (by rfl)⟩

/-- The shared version/name extraction of the parser, characterized with the
spec's notions (first-separator split) instead of Go's split-then-join. -/
lemma parseHalf_spec (base : List Char) (isUp : Bool) (content filename : String)
    (h : parseMigrationFile filename content =
      parseHalfGo base isUp content) :
    parseBranchSpec base isUp filename content := by
  refine ⟨?_, ?_, ?_⟩
  · intro hsep
    have hlen : (splitChar '_' base).length < 2 := by
      have := (splitChar_two_fields_iff '_' base).not.mpr hsep
      omega
    rw [h]
    simp only [parseHalfGo]
    rw [if_pos hlen]
  · intro hsep hatoi
    have hlen : ¬ (splitChar '_' base).length < 2 := by
      have := (splitChar_two_fields_iff '_' base).mpr hsep
      omega
    rw [h]
    simp only [parseHalfGo]
    rw [if_neg hlen, splitChar_headI]
    simp only [leadingToken] at hatoi
    rw [hatoi]
  · intro v hsep hatoi
    have hlen : ¬ (splitChar '_' base).length < 2 := by
      have := (splitChar_two_fields_iff '_' base).mpr hsep
      omega
    rw [h]
    simp only [parseHalfGo]
    rw [if_neg hlen, splitChar_headI]
    simp only [leadingToken] at hatoi
    rw [hatoi]
    simp only [afterFirstSep, ← joinChar_tail_splitChar]
    cases isUp <;> simp

/-- C7 (amended): a filename with neither recognized suffix is rejected with
InvalidFilename; with a recognized suffix, the remaining basename must
contain a separator (else the format error), its leading token — the
characters before the first separator — must be an integer `strconv.Atoi`
accepts, sign included (else InvalidVersion), and on success the version is
that integer (negative versions included) and the name is everything after
the first separator, the trimmed content stored on the side the suffix
names. -/
theorem parse_migration_filename_characterization (filename content : String) :
    (hasSuffixC filename.data (".up.sql".data) = false →
     hasSuffixC filename.data (".down.sql".data) = false →
     parseMigrationFile filename content = .error .invalidSuffix) ∧
    (hasSuffixC filename.data (".up.sql".data) = true →
     parseBranchSpec (trimSuffixC filename.data (".up.sql".data)) true filename content) ∧
    (hasSuffixC filename.data (".up.sql".data) = false →
     hasSuffixC filename.data (".down.sql".data) = true →
     parseBranchSpec (trimSuffixC filename.data (".down.sql".data)) false filename content) := by
  refine ⟨?_, ?_, ?_⟩
  · intro h1 h2
    simp [parseMigrationFile, h1, h2]
  · intro h1
    exact parseHalf_spec _ true content filename (by simp [parseMigrationFile, h1])
  · intro h1 h2
    exact parseHalf_spec _ false content filename (by simp [parseMigrationFile, h1, h2])

/-- Witness for the parser characterization: `12_add_users.up.sql` parses to
version 12, name `add_users`, with the content as the up script. -/
theorem parse_migration_filename_characterization_witness :
    parseMigrationFile ("12_add_users.up.sql") ("CREATE TABLE users") =
      .ok ⟨12, (afterFirstSep (trimSuffixC ("12_add_users.up.sql".data) (".up.sql".data))).asString,
           if true then trimSpace ("CREATE TABLE users") else (""),
           if true then ("") else trimSpace ("CREATE TABLE users")⟩ :=
  ((parse_migration_filename_characterization ("12_add_users.up.sql")
      ("CREATE TABLE users")).2.1 (by rfl)).2.2 12 (by decide) (by rfl)

end MigRunner
